import Mathlib

/-!
Shallow embedding of the 2-opt TSP local search notebook (`TwoOpt.ipynb`).

The distance matrix `TSP.edges` is modelled as a function `d : Nat → Nat → Int`
passed explicitly to every operation (the Python code reads it from class-level
state).  Tours are `List Nat`.  The route cache `TSP.routes` is modelled as an
association list keyed by the sorted node list (the Python key is
`str(sorted(path))`, and `str` is injective on sorted integer lists).
Failures (Python `IndexError` on `path[-1]` of an empty list) become `Option` /
`Except` results.
-/

namespace TwoOptModel

/-- The edge sum of `TSP.pathCost`'s `for` loop:
`sum of dist(path[i-1], path[i]) for i in range(1, len(path))`. -/
def legs (d : Nat → Nat → Int) : List Nat → Int
  | a :: b :: rest => d a b + legs d (b :: rest)
  | _ => 0

/-- Total cycle cost of a (nonempty) tour: the closing edge
`dist(path[-1], path[0])` plus the consecutive-edge sum.  On `[]` this returns
junk; `pathCost` guards emptiness. -/
def tourCost (d : Nat → Nat → Int) (p : List Nat) : Int :=
  d (p.getLastD 0) (p.headD 0) + legs d p

/-- Model of `TSP.pathCost`.  `path[-1]` raises `IndexError` on an empty list, modelled
as `none`. -/
def pathCost (d : Nat → Nat → Int) (p : List Nat) : Option Int :=
  if p.isEmpty then none else some (tourCost d p)

/-- Model of `swap(path, i, j) = path[:i] + list(reversed(path[i:j + 1])) + path[j + 1:]`. -/
def swap (path : List α) (i j : Nat) : List α :=
  path.take i ++ ((path.drop i).take (j + 1 - i)).reverse ++ path.drop (j + 1)

/-- The move delta computed inside `TwoOpt._improve` for the pair `(n, m)`:
with `i = path[n]`, `j = path[m]`, `k = path[n+1]`, `l = path[m+1]`,
`change = dist(i,j) + dist(k,l) - (dist(i,k) + dist(j,l))`. -/
def change (d : Nat → Nat → Int) (path : List Nat) (n m : Nat) : Int :=
  d (path.getD n 0) (path.getD m 0) + d (path.getD (n + 1) 0) (path.getD (m + 1) 0)
    - (d (path.getD n 0) (path.getD (n + 1) 0) + d (path.getD m 0) (path.getD (m + 1) 0))

/-- The candidate pairs scanned by `TwoOpt._improve`, in scan order:
`for n in range(size - 3): for m in range(n + 2, size - 1)`. -/
def candidates (size : Nat) : List (Nat × Nat) :=
  (List.range (size - 3)).flatMap fun n =>
    (List.range' (n + 2) (size - 1 - (n + 2))).map fun m => (n, m)

/-- The scan loop of `TwoOpt._improve`, with the accumulator `(saved, bestChange)`
made explicit.  In fast mode the first accepted candidate is returned at once. -/
def improveGo (d : Nat → Nat → Int) (fast : Bool) (path : List Nat) :
    List (Nat × Nat) → Option (Nat × Nat) → Int → Option (Nat × Nat) × Int
  | [], saved, bestChange => (saved, bestChange)
  | (n, m) :: rest, saved, bestChange =>
    let c := change d path n m
    if c < bestChange then
      if fast then (some (n, m), c)
      else improveGo d fast path rest (some (n, m)) c
    else improveGo d fast path rest saved bestChange

/-- Model of `TwoOpt._improve(bestPath, size)`: scans the candidate pairs starting from
`saved = None`, `bestChange = 0`. -/
def improve (d : Nat → Nat → Int) (fast : Bool) (path : List Nat) (size : Nat) :
    Option (Nat × Nat) × Int :=
  improveGo d fast path (candidates size) none 0

/-- The `while bestChange < 0` loop of `TwoOpt._optimise`, with explicit fuel.
`none` means the fuel ran out (the Python loop has no iteration cap) or the
unreachable unpacking of `saved = None` under `bestChange < 0`.  `size` is
computed once before the loop, as in the source. -/
def optimiseLoop (d : Nat → Nat → Int) (fast : Bool) (size : Nat) :
    Nat → List Nat → Option (List Nat)
  | 0, _ => none
  | fuel + 1, path =>
    if (improve d fast path size).2 < 0 then
      match (improve d fast path size).1 with
      | some (i, j) => optimiseLoop d fast size fuel (swap path (i + 1) j)
      | none => none
    else some path

/-- Instance state of a `TSP` object (the mutable per-instance fields). -/
structure TSPState where
  nodes : List Nat
  fast : Bool
  initial_path : List Nat
  initial_cost : Int
  heuristic_path : List Nat
  heuristic_cost : Int
  deriving Repr, DecidableEq

/-- The global `TSP.routes` dictionary: an association list from the canonical
key to `{"path": path, "cost": cost}`.  Insertion prepends, so lookup sees the
most recent write (last-write-wins, as a Python dict). -/
abbrev Cache := List (List Nat × (List Nat × Int))

/-- The canonical cache key `str(sorted(path))`, modelled as the sorted list. -/
def sortKey (p : List Nat) : List Nat :=
  List.insertionSort (· ≤ ·) p

def lookupCache (routes : Cache) (k : List Nat) : Option (List Nat × Int) :=
  routes.lookup k

/-- Model of `TSP.save(path, cost)`: sets the heuristic fields and writes through to the
route cache under the canonical key of `path`. -/
def save (s : TSPState) (routes : Cache) (path : List Nat) (cost : Int) :
    TSPState × Cache :=
  ({ s with heuristic_path := path, heuristic_cost := cost },
   (sortKey path, (path, cost)) :: routes)

/-- Model of `TSP.update(solution)`: sets `heuristic_path` to the projection of the
initial path onto `solution`, then recomputes `heuristic_cost` via `pathCost`.
The Python statement order matters: if `pathCost` raises (empty projection), the
instance is left with the new `heuristic_path` and the old `heuristic_cost`; the
`.error` branch carries that partially mutated state. -/
def update (d : Nat → Nat → Int) (s : TSPState) (solution : List Nat) :
    Except TSPState TSPState :=
  let newPath := s.initial_path.filter (fun i => i ∈ solution)
  match pathCost d newPath with
  | none => .error { s with heuristic_path := newPath }
  | some c => .ok { s with heuristic_path := newPath, heuristic_cost := c }

/-- Model of `TwoOpt._optimise`: run the search loop from the current heuristic path,
then `self.save(bestPath, self.pathCost(bestPath))`. -/
def twoOptRun (d : Nat → Nat → Int) (fuel : Nat) (s : TSPState) (routes : Cache) :
    Option (TSPState × Cache) :=
  (optimiseLoop d s.fast s.heuristic_path.length fuel s.heuristic_path).bind fun best =>
    (pathCost d best).map fun c => save s routes best c

/-- Model of `TSP.optimise()`: look up the canonical key of the current heuristic path;
on a hit adopt the cached path and cost, on a miss run `_optimise` (which
saves); return `(heuristic_path, heuristic_cost)`. -/
def optimise (d : Nat → Nat → Int) (fuel : Nat) (s : TSPState) (routes : Cache) :
    Option (TSPState × Cache × (List Nat × Int)) :=
  match lookupCache routes (sortKey s.heuristic_path) with
  | some (p, c) =>
    some ({ s with heuristic_path := p, heuristic_cost := c }, routes, (p, c))
  | none =>
    (twoOptRun d fuel s routes).map fun (s', routes') =>
      (s', routes', (s'.heuristic_path, s'.heuristic_cost))

/-- Model of `TSP.__init__(nodes, fast)`: `initial_cost = pathCost(nodes)` is computed
eagerly (raising on an empty node list), and the heuristic fields start as the
initial ones. -/
def mkTSP (d : Nat → Nat → Int) (nodes : List Nat) (fast : Bool) : Option TSPState :=
  (pathCost d nodes).map fun c =>
    { nodes := nodes, fast := fast, initial_path := nodes, initial_cost := c,
      heuristic_path := nodes, heuristic_cost := c }

/-- The `cross` test matrix `[[0,2,3,2],[2,0,2,3],[3,2,0,2],[2,3,2,0]]` from the
notebook, as a distance function. -/
def crossD (i j : Nat) : Int :=
  (([[0, 2, 3, 2], [2, 0, 2, 3], [3, 2, 0, 2], [2, 3, 2, 0]] :
      List (List Int)).getD i []).getD j 0

/-- The termination measure for the `while` loop of `_optimise`: how many
permutations of the starting tour are strictly cheaper than the current tour.
Each accepted 2-opt move strictly shrinks it. -/
def permCount (d : Nat → Nat → Int) (start cur : List Nat) : Nat :=
  start.permutations.countP (fun q => decide (tourCost d q < tourCost d cur))

/-- Modelled from the spec: "sum of `dist` over consecutive pairs in tour order,
plus the closing edge from the last node back to the first".  Used only to
compare against the source-derived `pathCost`. -/
def specCost (d : Nat → Nat → Int) (p : List Nat) : Int :=
  ((List.range (p.length - 1)).map fun idx => d (p.getD idx 0) (p.getD (idx + 1) 0)).sum
    + d (p.getD (p.length - 1) 0) (p.getD 0 0)

/-! ### Basic lemmas about `legs` and list heads/lasts -/

theorem headD_append (L M : List Nat) (h : L ≠ []) : (L ++ M).headD 0 = L.headD 0 := by
  cases L with
  | nil => exact absurd rfl h
  | cons a t => rfl

theorem getLastD_cons_ne (a : Nat) (L : List Nat) (h : L ≠ []) :
    (a :: L).getLastD 0 = L.getLastD 0 := by
  cases L with
  | nil => exact absurd rfl h
  | cons b t => rfl

theorem getLastD_append (L M : List Nat) (h : M ≠ []) :
    (L ++ M).getLastD 0 = M.getLastD 0 := by
  induction L with
  | nil => rfl
  | cons a L ih =>
    have hLM : L ++ M ≠ [] := by
      intro hc
      rcases List.append_eq_nil.mp hc with ⟨-, h2⟩
      exact h h2
    rw [List.cons_append, getLastD_cons_ne a (L ++ M) hLM, ih]

theorem legs_cons_ne (d : Nat → Nat → Int) (x : Nat) (L : List Nat) (h : L ≠ []) :
    legs d (x :: L) = d x (L.headD 0) + legs d L := by
  cases L with
  | nil => exact absurd rfl h
  | cons b t => rfl

theorem legs_append_singleton (d : Nat → Nat → Int) (A : List Nat) (x : Nat) (h : A ≠ []) :
    legs d (A ++ [x]) = legs d A + d (A.getLastD 0) x := by
  induction A with
  | nil => exact absurd rfl h
  | cons a A ih =>
    cases A with
    | nil => simp [legs]
    | cons b B =>
      have hne : (b :: B : List Nat) ≠ [] := by simp
      have happ : (b :: B) ++ [x] ≠ ([] : List Nat) := by simp
      rw [List.cons_append, legs_cons_ne d a ((b :: B) ++ [x]) happ,
        ih hne, legs_cons_ne d a (b :: B) hne,
        headD_append (b :: B) [x] hne, getLastD_cons_ne a (b :: B) hne]
      ring

theorem legs_reverse (d : Nat → Nat → Int) (hsym : ∀ i j, d i j = d j i) (L : List Nat) :
    legs d L.reverse = legs d L := by
  induction L with
  | nil => rfl
  | cons a L ih =>
    cases L with
    | nil => rfl
    | cons b B =>
      have hrev : (b :: B : List Nat).reverse ≠ [] := by simp
      rw [List.reverse_cons, legs_append_singleton d ((b :: B).reverse) a hrev, ih,
        legs_cons_ne d a (b :: B) (by simp)]
      have hlast : ((b :: B : List Nat).reverse).getLastD 0 = (b :: B).headD 0 := by
        simp [List.getLastD_eq_getLast?, List.headD_eq_head?]
      rw [hlast, hsym ((b :: B).headD 0) a]
      ring

theorem legs_append_cons (d : Nat → Nat → Int) (A : List Nat) (a b : Nat) (B : List Nat) :
    legs d ((A ++ [a]) ++ b :: B) = legs d (A ++ [a]) + d a b + legs d (b :: B) := by
  induction A with
  | nil => simp [legs]
  | cons x A ih =>
    have h1 : (A ++ [a]) ++ b :: B ≠ ([] : List Nat) := by simp
    have h2 : A ++ [a] ≠ ([] : List Nat) := by simp
    rw [List.cons_append, List.cons_append, legs_cons_ne d x ((A ++ [a]) ++ b :: B) h1,
      ih, legs_cons_ne d x (A ++ [a]) h2, headD_append (A ++ [a]) (b :: B) h2]
    ring

/-! ### The 2-opt cost identity -/

theorem tourCost_core (d : Nat → Nat → Int) (hsym : ∀ i j, d i j = d j i)
    (P M C : List Nat) (i k j l : Nat) :
    tourCost d (((P ++ [i]) ++ (k :: (M ++ [j])).reverse) ++ (l :: C))
      = tourCost d (((P ++ [i]) ++ (k :: (M ++ [j]))) ++ (l :: C))
        + (d i j + d k l - (d i k + d j l)) := by
  have hrev : (k :: (M ++ [j])).reverse = j :: (M.reverse ++ [k]) := by simp
  have l1 : legs d (((P ++ [i]) ++ (k :: (M ++ [j]))) ++ (l :: C))
      = legs d ((P ++ [i]) ++ (k :: (M ++ [j]))) + d j l + legs d (l :: C) := by
    have hx : (P ++ [i]) ++ (k :: (M ++ [j])) = ((P ++ [i]) ++ (k :: M)) ++ [j] := by simp
    rw [hx]
    exact legs_append_cons d ((P ++ [i]) ++ (k :: M)) j l C
  have l2 : legs d ((P ++ [i]) ++ (k :: (M ++ [j])))
      = legs d (P ++ [i]) + d i k + legs d (k :: (M ++ [j])) := by
    exact legs_append_cons d P i k (M ++ [j])
  have l3 : legs d (((P ++ [i]) ++ (j :: (M.reverse ++ [k]))) ++ (l :: C))
      = legs d ((P ++ [i]) ++ (j :: (M.reverse ++ [k]))) + d k l + legs d (l :: C) := by
    have hx : (P ++ [i]) ++ (j :: (M.reverse ++ [k]))
        = ((P ++ [i]) ++ (j :: M.reverse)) ++ [k] := by simp
    rw [hx]
    exact legs_append_cons d ((P ++ [i]) ++ (j :: M.reverse)) k l C
  have l4 : legs d ((P ++ [i]) ++ (j :: (M.reverse ++ [k])))
      = legs d (P ++ [i]) + d i j + legs d (j :: (M.reverse ++ [k])) := by
    exact legs_append_cons d P i j (M.reverse ++ [k])
  have l5 : legs d (j :: (M.reverse ++ [k])) = legs d (k :: (M ++ [j])) := by
    have hx : j :: (M.reverse ++ [k]) = (k :: (M ++ [j])).reverse := by simp
    rw [hx, legs_reverse d hsym]
  have hh1 : ((((P ++ [i]) ++ (k :: (M ++ [j]))) ++ (l :: C)) : List Nat).headD 0
      = (P ++ [i]).headD 0 := by
    rw [headD_append _ _ (by simp), headD_append _ _ (by simp)]
  have hh2 : ((((P ++ [i]) ++ (j :: (M.reverse ++ [k]))) ++ (l :: C)) : List Nat).headD 0
      = (P ++ [i]).headD 0 := by
    rw [headD_append _ _ (by simp), headD_append _ _ (by simp)]
  have hg1 : ((((P ++ [i]) ++ (k :: (M ++ [j]))) ++ (l :: C)) : List Nat).getLastD 0
      = (l :: C).getLastD 0 := getLastD_append _ _ (by simp)
  have hg2 : ((((P ++ [i]) ++ (j :: (M.reverse ++ [k]))) ++ (l :: C)) : List Nat).getLastD 0
      = (l :: C).getLastD 0 := getLastD_append _ _ (by simp)
  rw [hrev]
  show d _ _ + legs d _ = d _ _ + legs d _ + _
  rw [hh1, hh2, hg1, hg2, l1, l2, l3, l4, l5]
  ring

theorem tourCost_swap (d : Nat → Nat → Int) (hsym : ∀ i j, d i j = d j i)
    (path : List Nat) (n m : Nat) (h1 : n + 2 ≤ m) (h2 : m + 1 < path.length) :
    tourCost d (swap path (n + 1) m) = tourCost d path + change d path n m := by
  have hn : n < path.length := by omega
  have hn1 : n + 1 < path.length := by omega
  have hm : m < path.length := by omega
  have hA : path.take (n + 1) = path.take n ++ [path.getD n 0] := by
    rw [List.take_succ, List.getElem?_eq_getElem hn, List.getD_eq_getElem path 0 hn]
    rfl
  set tl := (path.drop (n + 2)).take (m - n - 1) with htl
  have htl_len : tl.length = m - n - 1 := by
    rw [htl, List.length_take, List.length_drop]
    omega
  have htl_ne : tl ≠ [] := by
    intro hc
    rw [hc] at htl_len
    simp at htl_len
    omega
  have htl_last? : tl.getLast? = some (path.getD m 0) := by
    rw [List.getLast?_eq_getElem?, htl_len, htl, List.getElem?_take, if_pos (by omega),
      List.getElem?_drop]
    have hx : n + 2 + (m - n - 1 - 1) = m := by omega
    rw [hx, List.getElem?_eq_getElem hm, List.getD_eq_getElem path 0 hm]
  have htl_last : tl.getLast htl_ne = path.getD m 0 := by
    have hx := List.getLast?_eq_getLast tl htl_ne
    rw [htl_last?] at hx
    exact (Option.some_inj.mp hx).symm
  have htl_split : tl = tl.dropLast ++ [path.getD m 0] := by
    conv_lhs => rw [← List.dropLast_append_getLast htl_ne]
    rw [htl_last]
  -- the scanned segment `path[n+1 : m+1]`, as a cons of its head on `tl`
  have hseg : (path.drop (n + 1)).take (m + 1 - (n + 1))
      = path.getD (n + 1) 0 :: (tl.dropLast ++ [path.getD m 0]) := by
    rw [List.drop_eq_getElem_cons hn1, ← List.getD_eq_getElem path 0 hn1]
    have hx : m + 1 - (n + 1) = (m - n - 1) + 1 := by omega
    rw [hx, List.take_succ_cons, ← htl, ← htl_split]
  have hsuf : path.drop (m + 1) = path.getD (m + 1) 0 :: path.drop (m + 2) := by
    rw [List.drop_eq_getElem_cons h2, List.getD_eq_getElem path 0 h2]
  have h0 : (path.drop (n + 1)).take (m + 1 - (n + 1))
      ++ (path.drop (n + 1)).drop (m + 1 - (n + 1)) = path.drop (n + 1) :=
    List.take_append_drop _ _
  have h0' : (path.drop (n + 1)).drop (m + 1 - (n + 1)) = path.drop (m + 1) := by
    rw [List.drop_drop]
    congr 1
    omega
  have hsplit : (path.take (n + 1) ++ (path.drop (n + 1)).take (m + 1 - (n + 1)))
      ++ path.drop (m + 1) = path := by
    rw [List.append_assoc, ← h0', h0, List.take_append_drop]
  have hswap : swap path (n + 1) m
      = ((path.take n ++ [path.getD n 0])
          ++ (path.getD (n + 1) 0 :: (tl.dropLast ++ [path.getD m 0])).reverse)
        ++ (path.getD (m + 1) 0 :: path.drop (m + 2)) := by
    show (path.take (n + 1) ++ ((path.drop (n + 1)).take (m + 1 - (n + 1))).reverse)
        ++ path.drop (m + 1) = _
    rw [hA, hseg, hsuf]
  have hpath2 : ((path.take n ++ [path.getD n 0])
        ++ (path.getD (n + 1) 0 :: (tl.dropLast ++ [path.getD m 0])))
      ++ (path.getD (m + 1) 0 :: path.drop (m + 2)) = path := by
    rw [← hA, ← hseg, ← hsuf]
    exact hsplit
  rw [hswap, tourCost_core d hsym (path.take n) tl.dropLast (path.drop (m + 2))
    (path.getD n 0) (path.getD (n + 1) 0) (path.getD m 0) (path.getD (m + 1) 0), hpath2]
  rfl

/-! ### The candidate scan of `_improve` -/

theorem candidates_mem (size n m : Nat) :
    (n, m) ∈ candidates size ↔ n + 2 ≤ m ∧ m + 2 ≤ size := by
  unfold candidates
  simp only [List.mem_flatMap, List.mem_map, List.mem_range, List.mem_range'_1,
    Prod.mk.injEq]
  constructor
  · rintro ⟨a, ha, b, ⟨hb1, hb2⟩, rfl, rfl⟩
    omega
  · rintro ⟨h1, h2⟩
    exact ⟨n, by omega, m, ⟨by omega, by omega⟩, rfl, rfl⟩

theorem improveGo_cases (d : Nat → Nat → Int) (fast : Bool) (path : List Nat) :
    ∀ (cs : List (Nat × Nat)) (saved : Option (Nat × Nat)) (c : Int),
      improveGo d fast path cs saved c = (saved, c)
      ∨ ∃ q ∈ cs, improveGo d fast path cs saved c = (some q, change d path q.1 q.2)
          ∧ change d path q.1 q.2 < c := by
  intro cs
  induction cs with
  | nil => intro saved c; left; rfl
  | cons hd rest ih =>
    intro saved c
    obtain ⟨n, m⟩ := hd
    by_cases hc : change d path n m < c
    · cases fast with
      | true =>
        right
        exact ⟨(n, m), List.mem_cons_self _ _, by simp [improveGo, hc], hc⟩
      | false =>
        right
        have hstep : improveGo d false path ((n, m) :: rest) saved c
            = improveGo d false path rest (some (n, m)) (change d path n m) := by
          simp [improveGo, hc]
        rcases ih (some (n, m)) (change d path n m) with h | ⟨q, hq, heq, hlt⟩
        · exact ⟨(n, m), List.mem_cons_self _ _, by rw [hstep, h], hc⟩
        · exact ⟨q, List.mem_cons_of_mem _ hq, by rw [hstep, heq], lt_trans hlt hc⟩
    · have hstep : improveGo d fast path ((n, m) :: rest) saved c
          = improveGo d fast path rest saved c := by
        simp [improveGo, hc]
      rcases ih saved c with h | ⟨q, hq, heq, hlt⟩
      · left; rw [hstep, h]
      · right; exact ⟨q, List.mem_cons_of_mem _ hq, by rw [hstep, heq], hlt⟩

theorem improveGo_false_min (d : Nat → Nat → Int) (path : List Nat) :
    ∀ (cs : List (Nat × Nat)) (saved : Option (Nat × Nat)) (c : Int),
      (improveGo d false path cs saved c).2 ≤ c
      ∧ ∀ q ∈ cs, (improveGo d false path cs saved c).2 ≤ change d path q.1 q.2 := by
  intro cs
  induction cs with
  | nil => exact fun saved c => ⟨le_refl c, by simp⟩
  | cons hd rest ih =>
    intro saved c
    obtain ⟨n, m⟩ := hd
    by_cases hc : change d path n m < c
    · have hstep : improveGo d false path ((n, m) :: rest) saved c
          = improveGo d false path rest (some (n, m)) (change d path n m) := by
        simp [improveGo, hc]
      obtain ⟨h1, h2⟩ := ih (some (n, m)) (change d path n m)
      refine ⟨by rw [hstep]; exact le_of_lt (lt_of_le_of_lt h1 hc), ?_⟩
      intro q hq
      rcases List.mem_cons.mp hq with rfl | hq'
      · rw [hstep]; exact h1
      · rw [hstep]; exact h2 q hq'
    · have hstep : improveGo d false path ((n, m) :: rest) saved c
          = improveGo d false path rest saved c := by
        simp [improveGo, hc]
      obtain ⟨h1, h2⟩ := ih saved c
      refine ⟨by rw [hstep]; exact h1, ?_⟩
      intro q hq
      rcases List.mem_cons.mp hq with rfl | hq'
      · rw [hstep]; exact le_trans h1 (not_lt.mp hc)
      · rw [hstep]; exact h2 q hq'

theorem improveGo_fast_none (d : Nat → Nat → Int) (path : List Nat) :
    ∀ (cs : List (Nat × Nat)) (saved : Option (Nat × Nat)) (c : Int),
      cs.find? (fun q => decide (change d path q.1 q.2 < c)) = none →
      improveGo d true path cs saved c = (saved, c) := by
  intro cs
  induction cs with
  | nil => intro saved c _; rfl
  | cons hd rest ih =>
    intro saved c hfind
    obtain ⟨n, m⟩ := hd
    rw [List.find?_cons] at hfind
    cases hdec : decide (change d path (n, m).1 (n, m).2 < c) with
    | true =>
      rw [hdec] at hfind
      simp at hfind
    | false =>
      rw [hdec] at hfind
      have hc : ¬change d path n m < c := by simpa using hdec
      have hstep : improveGo d true path ((n, m) :: rest) saved c
          = improveGo d true path rest saved c := by
        simp [improveGo, hc]
      rw [hstep]
      exact ih saved c hfind

theorem improveGo_fast_some (d : Nat → Nat → Int) (path : List Nat) :
    ∀ (cs : List (Nat × Nat)) (saved : Option (Nat × Nat)) (c : Int) (q : Nat × Nat),
      cs.find? (fun q => decide (change d path q.1 q.2 < c)) = some q →
      improveGo d true path cs saved c = (some q, change d path q.1 q.2) := by
  intro cs
  induction cs with
  | nil => intro saved c q h; cases h
  | cons hd rest ih =>
    intro saved c q hfind
    obtain ⟨n, m⟩ := hd
    rw [List.find?_cons] at hfind
    cases hdec : decide (change d path (n, m).1 (n, m).2 < c) with
    | true =>
      rw [hdec] at hfind
      simp only [] at hfind
      obtain rfl := Option.some_inj.mp hfind
      have hc : change d path n m < c := by simpa using hdec
      simp [improveGo, hc]
    | false =>
      rw [hdec] at hfind
      have hc : ¬change d path n m < c := by simpa using hdec
      have hstep : improveGo d true path ((n, m) :: rest) saved c
          = improveGo d true path rest saved c := by
        simp [improveGo, hc]
      rw [hstep]
      exact ih saved c q hfind

theorem improve_cases (d : Nat → Nat → Int) (fast : Bool) (path : List Nat) (size : Nat) :
    improve d fast path size = (none, 0)
    ∨ ∃ q ∈ candidates size, improve d fast path size = (some q, change d path q.1 q.2)
        ∧ change d path q.1 q.2 < 0 :=
  improveGo_cases d fast path (candidates size) none 0

theorem improve_some (d : Nat → Nat → Int) (fast : Bool) (path : List Nat) (size : Nat)
    (n m : Nat) (c : Int) (h : improve d fast path size = (some (n, m), c)) :
    (n, m) ∈ candidates size ∧ c = change d path n m ∧ c < 0 := by
  rcases improve_cases d fast path size with h0 | ⟨q, hq, heq, hlt⟩
  · rw [h] at h0
    cases h0
  · rw [h] at heq
    have h1 : some (n, m) = some q := congrArg Prod.fst heq
    have h2 : c = change d path q.1 q.2 := congrArg Prod.snd heq
    obtain rfl := Option.some_inj.mp h1
    exact ⟨hq, h2, lt_of_le_of_lt (le_of_eq h2) hlt⟩

/-! ### Permutation preservation and termination of the search loop -/

theorem swap_perm {α : Type} (t : List α) (i j : Nat) (hij : i ≤ j) :
    (swap t i j).Perm t := by
  show ((t.take i ++ ((t.drop i).take (j + 1 - i)).reverse) ++ t.drop (j + 1)).Perm t
  have hd : (t.drop i).drop (j + 1 - i) = t.drop (j + 1) := by
    rw [List.drop_drop]
    congr 1
    omega
  have h1 : ((t.take i ++ ((t.drop i).take (j + 1 - i)).reverse) ++ t.drop (j + 1)).Perm
      ((t.take i ++ (t.drop i).take (j + 1 - i)) ++ t.drop (j + 1)) :=
    List.Perm.append_right _ (List.Perm.append_left _ (List.reverse_perm _))
  have h2 : (t.take i ++ (t.drop i).take (j + 1 - i)) ++ t.drop (j + 1) = t := by
    rw [List.append_assoc, ← hd, List.take_append_drop, List.take_append_drop]
  have h3 : ((t.take i ++ (t.drop i).take (j + 1 - i)) ++ t.drop (j + 1)).Perm t := by
    rw [h2]
  exact h1.trans h3

theorem optimiseLoop_perm (d : Nat → Nat → Int) (fast : Bool) (size : Nat) :
    ∀ (fuel : Nat) (path res : List Nat),
      optimiseLoop d fast size fuel path = some res → res.Perm path := by
  intro fuel
  induction fuel with
  | zero => intro path res h; cases h
  | succ fuel ih =>
    intro path res h
    rw [optimiseLoop] at h
    by_cases hneg : (improve d fast path size).2 < 0
    · rw [if_pos hneg] at h
      rcases improve_cases d fast path size with h0 | ⟨⟨n, m⟩, hq, heq, hlt⟩
      · rw [h0] at hneg
        simp at hneg
      · rw [heq] at h
        simp only [] at h
        have hbounds := (candidates_mem size n m).mp hq
        have hp : (swap path (n + 1) m).Perm path := swap_perm path (n + 1) m (by omega)
        exact (ih _ res h).trans hp
    · rw [if_neg hneg] at h
      obtain rfl := Option.some_inj.mp h
      exact List.Perm.refl _

theorem countP_lt {α : Type} (p q : α → Bool) :
    ∀ (l : List α), (∀ a ∈ l, p a = true → q a = true) →
      ∀ a ∈ l, q a = true → p a = false → l.countP p < l.countP q := by
  intro l
  induction l with
  | nil => intro _ a ha; cases ha
  | cons x xs ih =>
    intro hpq a ha hqa hpa
    rw [List.countP_cons, List.countP_cons]
    rcases List.mem_cons.mp ha with rfl | ha'
    · have hle : xs.countP p ≤ xs.countP q :=
        List.countP_mono_left (fun b hb => hpq b (List.mem_cons_of_mem _ hb))
      rw [hpa, hqa]
      simp only [Bool.false_eq_true, if_false, if_true]
      omega
    · have hlt := ih (fun b hb => hpq b (List.mem_cons_of_mem _ hb)) a ha' hqa hpa
      have hx : (if p x = true then 1 else 0) ≤ (if q x = true then 1 else 0) := by
        by_cases hpx : p x = true
        · rw [if_pos hpx, if_pos (hpq x (List.mem_cons_self x xs) hpx)]
        · rw [if_neg hpx]
          split <;> omega
      omega

theorem optimiseLoop_total (d : Nat → Nat → Int) (hsym : ∀ i j, d i j = d j i)
    (fast : Bool) (start : List Nat) :
    ∀ (fuel : Nat) (cur : List Nat), cur.Perm start → permCount d start cur < fuel →
      (optimiseLoop d fast start.length fuel cur).isSome = true := by
  intro fuel
  induction fuel with
  | zero => intro cur _ hlt; exact absurd hlt (Nat.not_lt_zero _)
  | succ fuel ih =>
    intro cur hperm hlt
    rw [optimiseLoop]
    by_cases hneg : (improve d fast cur start.length).2 < 0
    · rw [if_pos hneg]
      rcases improve_cases d fast cur start.length with h0 | ⟨⟨n, m⟩, hq, heq, hchg⟩
      · rw [h0] at hneg
        simp at hneg
      · rw [heq]
        simp only []
        have hbounds := (candidates_mem _ n m).mp hq
        have hlen : cur.length = start.length := hperm.length_eq
        have hsp : (swap cur (n + 1) m).Perm cur := swap_perm cur (n + 1) m (by omega)
        have hcost : tourCost d (swap cur (n + 1) m) = tourCost d cur + change d cur n m :=
          tourCost_swap d hsym cur n m hbounds.1 (by omega)
        have hchg' : change d cur n m < 0 := hchg
        have hdec : tourCost d (swap cur (n + 1) m) < tourCost d cur := by omega
        have hm : permCount d start (swap cur (n + 1) m) < permCount d start cur := by
          refine countP_lt _ _ start.permutations ?_ (swap cur (n + 1) m) ?_ ?_ ?_
          · intro a _ hpa
            simp only [decide_eq_true_eq] at hpa ⊢
            omega
          · exact List.mem_permutations.mpr (hsp.trans hperm)
          · simp only [decide_eq_true_eq]
            exact hdec
          · simp
        exact ih (swap cur (n + 1) m) (hsp.trans hperm) (by omega)
    · rw [if_neg hneg]
      rfl

/-! ### The `cross` matrix and the cache key -/

theorem crossD_right_big (i j : Nat) (hj : 4 ≤ j) : crossD i j = 0 := by
  unfold crossD
  rcases i with _ | _ | _ | _ | i
  · exact List.getD_eq_default _ _ hj
  · exact List.getD_eq_default _ _ hj
  · exact List.getD_eq_default _ _ hj
  · exact List.getD_eq_default _ _ hj
  · exact List.getD_eq_default _ _ (Nat.zero_le j)

theorem crossD_left_big (i j : Nat) (hi : 4 ≤ i) : crossD i j = 0 := by
  rcases i with _ | _ | _ | _ | i
  · omega
  · omega
  · omega
  · omega
  · rfl

theorem crossD_symm (i j : Nat) : crossD i j = crossD j i := by
  by_cases hi : i < 4
  · by_cases hj : j < 4
    · interval_cases i <;> interval_cases j <;> rfl
    · rw [crossD_right_big i j (by omega), crossD_left_big j i (by omega)]
  · rw [crossD_left_big i j (by omega), crossD_right_big j i (by omega)]

theorem sortKey_perm (p : List Nat) : (sortKey p).Perm p :=
  List.perm_insertionSort _ p

theorem sortKey_eq_of_perm (p q : List Nat) (h : p.Perm q) : sortKey p = sortKey q :=
  List.eq_of_perm_of_sorted
    ((sortKey_perm p).trans (h.trans (sortKey_perm q).symm))
    (List.sorted_insertionSort _ p)
    (List.sorted_insertionSort _ q)

/-! ### Positional characterisation of `swap` -/

theorem swap_length {α : Type} (t : List α) (i j : Nat) (hij : i ≤ j) (hj : j < t.length) :
    (swap t i j).length = t.length := by
  show ((t.take i ++ ((t.drop i).take (j + 1 - i)).reverse) ++ t.drop (j + 1)).length = _
  rw [List.length_append, List.length_append, List.length_reverse, List.length_take,
    List.length_take, List.length_drop, List.length_drop]
  omega

theorem swap_getElem? {α : Type} (t : List α) (i j pos : Nat) (hij : i ≤ j)
    (hj : j < t.length) :
    (swap t i j)[pos]? = if i ≤ pos ∧ pos ≤ j then t[i + j - pos]? else t[pos]? := by
  have hlen_take : (t.take i).length = i := by
    rw [List.length_take]
    omega
  have hmid : ((t.drop i).take (j + 1 - i)).length = j + 1 - i := by
    rw [List.length_take, List.length_drop]
    omega
  show ((t.take i ++ ((t.drop i).take (j + 1 - i)).reverse) ++ t.drop (j + 1))[pos]? = _
  by_cases h1 : pos < i
  · rw [List.getElem?_append_left
      (by rw [List.length_append, hlen_take, List.length_reverse, hmid]; omega)]
    rw [List.getElem?_append_left (by rw [hlen_take]; omega)]
    rw [List.getElem?_take, if_pos h1, if_neg (by omega)]
  · by_cases h2 : pos ≤ j
    · rw [List.getElem?_append_left
        (by rw [List.length_append, hlen_take, List.length_reverse, hmid]; omega)]
      rw [List.getElem?_append_right (by rw [hlen_take]; omega), hlen_take]
      rw [List.getElem?_reverse (by rw [hmid]; omega), hmid]
      rw [List.getElem?_take, if_pos (by omega), List.getElem?_drop]
      have hx : i + (j + 1 - i - 1 - (pos - i)) = i + j - pos := by omega
      rw [hx, if_pos (And.intro (by omega) h2)]
    · rw [List.getElem?_append_right
        (by rw [List.length_append, hlen_take, List.length_reverse, hmid]; omega)]
      rw [List.length_append, hlen_take, List.length_reverse, hmid]
      rw [List.getElem?_drop]
      have hx : j + 1 + (pos - (i + (j + 1 - i))) = pos := by omega
      rw [hx, if_neg (by omega)]

/-! ### `pathCost` against the spec formulation -/

theorem headD_eq_getD (p : List Nat) : p.headD 0 = p.getD 0 0 := by
  cases p <;> rfl

theorem getLastD_eq_getD (p : List Nat) : p.getLastD 0 = p.getD (p.length - 1) 0 := by
  rw [List.getLastD_eq_getLast?, List.getLast?_eq_getElem?, List.getD_eq_getElem?_getD]

theorem legs_eq_rangeSum (d : Nat → Nat → Int) :
    ∀ p : List Nat,
      legs d p
        = ((List.range (p.length - 1)).map fun idx =>
            d (p.getD idx 0) (p.getD (idx + 1) 0)).sum := by
  intro p
  induction p with
  | nil => rfl
  | cons a p ih =>
    cases p with
    | nil => rfl
    | cons b rest =>
      have hlen : ((a :: b :: rest : List Nat).length - 1) = rest.length + 1 := by
        simp
      rw [hlen, List.range_succ_eq_map, List.map_cons, List.sum_cons, List.map_map]
      have hstep : legs d (a :: b :: rest) = d a b + legs d (b :: rest) := rfl
      rw [hstep, ih]
      have hlen2 : ((b :: rest : List Nat).length - 1) = rest.length := by simp
      rw [hlen2]
      rfl

/-! ### Structure of `TwoOpt._optimise` runs and the cache -/

theorem twoOptRun_some (d : Nat → Nat → Int) (fuel : Nat) (s : TSPState) (routes : Cache)
    (s' : TSPState) (routes' : Cache) (h : twoOptRun d fuel s routes = some (s', routes')) :
    ∃ best c,
      optimiseLoop d s.fast s.heuristic_path.length fuel s.heuristic_path = some best
      ∧ pathCost d best = some c
      ∧ s' = { s with heuristic_path := best, heuristic_cost := c }
      ∧ routes' = (sortKey best, (best, c)) :: routes := by
  rcases hbe : optimiseLoop d s.fast s.heuristic_path.length fuel s.heuristic_path
    with _ | best
  · rw [twoOptRun, hbe] at h
    exact absurd h (by simp)
  · rcases hpc : pathCost d best with _ | c
    · rw [twoOptRun, hbe, Option.some_bind, hpc] at h
      exact absurd h (by simp)
    · rw [twoOptRun, hbe, Option.some_bind, hpc, Option.map_some'] at h
      have he : save s routes best c = (s', routes') := Option.some_inj.mp h
      have h1 : ({ s with heuristic_path := best, heuristic_cost := c } : TSPState) = s' :=
        congrArg Prod.fst he
      have h2 : ((sortKey best, (best, c)) :: routes : Cache) = routes' :=
        congrArg Prod.snd he
      exact ⟨best, c, rfl, hpc, h1.symm, h2.symm⟩

theorem lookupCache_cons_self (k : List Nat) (v : List Nat × Int) (rs : Cache) :
    lookupCache ((k, v) :: rs) k = some v := by
  simp [lookupCache, List.lookup]

/-! ### Claim theorems -/

/-- C4: a full (non-fast) scan of `_improve` evaluates exactly the candidate
pairs `(n, m)` with `n ∈ [0, S-3]` and `m ∈ [n+2, S-2]` (0-based), and the
delta computed for each pair is
`dist(tour[n],tour[m]) + dist(tour[n+1],tour[m+1]) − dist(tour[n],tour[n+1])
 − dist(tour[m],tour[m+1])`. -/
theorem claim4_candidate_space :
    (∀ size n m : Nat,
      (n, m) ∈ candidates size ↔ n ≤ size - 3 ∧ n + 2 ≤ m ∧ m ≤ size - 2)
    ∧ (∀ (d : Nat → Nat → Int) (p : List Nat) (n m : Nat),
      change d p n m
        = d (p.getD n 0) (p.getD m 0) + d (p.getD (n + 1) 0) (p.getD (m + 1) 0)
          - d (p.getD n 0) (p.getD (n + 1) 0) - d (p.getD m 0) (p.getD (m + 1) 0)) := by
  constructor
  · intro size n m
    rw [candidates_mem]
    omega
  · intro d p n m
    unfold change
    ring

/-- C5: for `0 ≤ i ≤ j < length(tour)`, `swap` returns a sequence of the same
length in which the inclusive sub-range `[i, j]` is exactly reversed (position
`pos` holds the input's element at `i + j - pos`) and every position outside
`[i, j]` is unchanged; in particular the two examples from the spec hold. -/
theorem claim5_swap_reverses_range :
    (∀ (t : List Nat) (i j : Nat), i ≤ j → j < t.length →
      (swap t i j).length = t.length
      ∧ ∀ pos : Nat,
          (swap t i j)[pos]? = if i ≤ pos ∧ pos ≤ j then t[i + j - pos]? else t[pos]?)
    ∧ swap [1, 2, 3, 4, 5] 1 2 = [1, 3, 2, 4, 5]
    ∧ swap [1, 2, 3, 4, 5] 0 3 = [4, 3, 2, 1, 5] :=
  ⟨fun t i j hij hj =>
    ⟨swap_length t i j hij hj, fun pos => swap_getElem? t i j pos hij hj⟩,
   rfl, rfl⟩

/-- Witness for C5 at `t = [1,2,3,4,5]`, `i = 1`, `j = 2`. -/
theorem claim5_witness :
    (swap [1, 2, 3, 4, 5] 1 2).length = ([1, 2, 3, 4, 5] : List Nat).length
    ∧ ∀ pos : Nat,
        (swap [1, 2, 3, 4, 5] 1 2)[pos]?
          = if 1 ≤ pos ∧ pos ≤ 2 then ([1, 2, 3, 4, 5] : List Nat)[1 + 2 - pos]?
            else ([1, 2, 3, 4, 5] : List Nat)[pos]? :=
  claim5_swap_reverses_range.1 [1, 2, 3, 4, 5] 1 2 (by decide) (by decide)

/-- C6: for every non-empty tour, `pathCost` equals the sum of `dist` over
consecutive pairs plus the closing edge from the last node back to the first
(the spec-side formulation `specCost`); on `[0,1,2,3]` over the `cross` matrix
it returns 8, not 6. -/
theorem claim6_pathCost_closes_cycle :
    (∀ (d : Nat → Nat → Int) (p : List Nat), p ≠ [] →
      pathCost d p = some (specCost d p))
    ∧ pathCost crossD [0, 1, 2, 3] = some 8
    ∧ (8 : Int) ≠ 6 := by
  refine ⟨?_, by decide, by decide⟩
  intro d p hp
  rw [pathCost, if_neg (by simpa [List.isEmpty_iff] using hp)]
  unfold tourCost specCost
  rw [headD_eq_getD, getLastD_eq_getD, legs_eq_rangeSum]
  exact congrArg some (add_comm _ _)

/-- Witness for C6 at the `cross` matrix and the tour `[0,1,2,3]`. -/
theorem claim6_witness :
    pathCost crossD [0, 1, 2, 3] = some (specCost crossD [0, 1, 2, 3]) :=
  claim6_pathCost_closes_cycle.1 crossD [0, 1, 2, 3] (by decide)

/-- C1: for a symmetric distance matrix, every move accepted by the engine (a
candidate pair returned by `_improve`, necessarily with strictly negative
delta; applied by reversing the sub-range `[n+1, m]`) makes the cycle cost
computed by `pathCost` strictly smaller; a move with `delta == 0` is never
accepted. -/
theorem claim1_accepted_move_improves (d : Nat → Nat → Int)
    (hsym : ∀ i j, d i j = d j i) (fast : Bool) (path : List Nat) (n m : Nat) (c : Int)
    (h : improve d fast path path.length = (some (n, m), c)) :
    c < 0
    ∧ pathCost d path = some (tourCost d path)
    ∧ pathCost d (swap path (n + 1) m) = some (tourCost d path + c)
    ∧ tourCost d (swap path (n + 1) m) < tourCost d path := by
  obtain ⟨hq, hc, hneg⟩ := improve_some d fast path path.length n m c h
  have hbounds := (candidates_mem _ n m).mp hq
  have hlen : m + 2 ≤ path.length := hbounds.2
  have hcost := tourCost_swap d hsym path n m hbounds.1 (by omega)
  have hne : ¬(path.isEmpty = true) := by
    rw [List.isEmpty_iff]
    intro hc0
    rw [hc0] at hlen
    simp at hlen
  have hsl : (swap path (n + 1) m).length = path.length :=
    swap_length path (n + 1) m (by omega) (by omega)
  have hne2 : ¬((swap path (n + 1) m).isEmpty = true) := by
    rw [List.isEmpty_iff]
    intro hc0
    rw [hc0] at hsl
    simp at hsl
    omega
  refine ⟨hneg, ?_, ?_, ?_⟩
  · rw [pathCost, if_neg hne]
  · rw [pathCost, if_neg hne2, hcost, hc]
  · rw [hcost]
    have hc' : change d path n m < 0 := hc ▸ hneg
    omega

/-- Witness for C1: on the `cross` matrix, from `[0,2,1,3]` the engine accepts
the pair `(0, 2)` with delta `-2`, and the cost drops from 10 to 8. -/
theorem claim1_witness :
    (-2 : Int) < 0
    ∧ pathCost crossD [0, 2, 1, 3] = some (tourCost crossD [0, 2, 1, 3])
    ∧ pathCost crossD (swap [0, 2, 1, 3] (0 + 1) 2)
        = some (tourCost crossD [0, 2, 1, 3] + (-2))
    ∧ tourCost crossD (swap [0, 2, 1, 3] (0 + 1) 2) < tourCost crossD [0, 2, 1, 3] :=
  claim1_accepted_move_improves crossD crossD_symm false [0, 2, 1, 3] 0 2 (-2) (by decide)

/-- C2: for a symmetric distance matrix the `while bestChange < 0` loop of
`TwoOpt._optimise` terminates for every input tour: some finite fuel makes the
fuelled loop return `some` (each accepted move strictly decreases the tour
cost, and only finitely many permutation costs exist). -/
theorem claim2_loop_terminates (d : Nat → Nat → Int) (hsym : ∀ i j, d i j = d j i)
    (fast : Bool) (path : List Nat) :
    ∃ fuel : Nat, (optimiseLoop d fast path.length fuel path).isSome = true :=
  ⟨permCount d path path + 1,
   optimiseLoop_total d hsym fast path (permCount d path path + 1) path
     (List.Perm.refl path) (Nat.lt_succ_self _)⟩

/-- Witness for C2 at the `cross` matrix and the start tour `[0,2,1,3]`. -/
theorem claim2_witness :
    ∃ fuel : Nat,
      (optimiseLoop crossD false ([0, 2, 1, 3] : List Nat).length fuel
        [0, 2, 1, 3]).isSome = true :=
  claim2_loop_terminates crossD crossD_symm false [0, 2, 1, 3]

/-- C3: in fast mode `_improve` returns the first candidate in scan order with
a strictly negative delta; in exhaustive mode it returns a candidate whose
delta is minimal over the whole candidate space (and strictly negative); in
both modes it returns no pair exactly when no candidate has negative delta. -/
theorem claim3_mode_policy :
    (∀ (d : Nat → Nat → Int) (path : List Nat) (size : Nat),
      ((candidates size).find? (fun q => decide (change d path q.1 q.2 < 0)) = none →
        improve d true path size = (none, 0))
      ∧ ∀ q : Nat × Nat,
          (candidates size).find? (fun q => decide (change d path q.1 q.2 < 0)) = some q →
          improve d true path size = (some q, change d path q.1 q.2))
    ∧ (∀ (d : Nat → Nat → Int) (path : List Nat) (size : Nat) (p : Nat × Nat) (c : Int),
        improve d false path size = (some p, c) →
        p ∈ candidates size ∧ c = change d path p.1 p.2 ∧ c < 0
        ∧ ∀ q ∈ candidates size, c ≤ change d path q.1 q.2)
    ∧ (∀ (d : Nat → Nat → Int) (fast : Bool) (path : List Nat) (size : Nat),
        (∀ q ∈ candidates size, 0 ≤ change d path q.1 q.2) →
        improve d fast path size = (none, 0))
    ∧ (∀ (d : Nat → Nat → Int) (fast : Bool) (path : List Nat) (size : Nat)
        (q : Nat × Nat), q ∈ candidates size → change d path q.1 q.2 < 0 →
        ∃ p, (improve d fast path size).1 = some p) := by
  refine ⟨fun d path size => ⟨?_, ?_⟩, ?_, ?_, ?_⟩
  · intro hf
    exact improveGo_fast_none d path (candidates size) none 0 hf
  · intro q hf
    exact improveGo_fast_some d path (candidates size) none 0 q hf
  · intro d path size p c h
    obtain ⟨n, m⟩ := p
    obtain ⟨hq, hc, hneg⟩ := improve_some d false path size n m c h
    refine ⟨hq, hc, hneg, ?_⟩
    intro q hqmem
    have hmin := (improveGo_false_min d path (candidates size) none 0).2 q hqmem
    have h2 : (improve d false path size).2 = c := by rw [h]
    rw [← h2]
    exact hmin
  · intro d fast path size hpos
    rcases improve_cases d fast path size with h | ⟨q, hq, heq, hlt⟩
    · exact h
    · have := hpos q hq
      omega
  · intro d fast path size q hq hneg
    cases fast with
    | false =>
      have hmin := (improveGo_false_min d path (candidates size) none 0).2 q hq
      rcases improve_cases d false path size with h | ⟨p, hp, heq, _⟩
      · exfalso
        have hmin' : (improve d false path size).2 ≤ change d path q.1 q.2 := hmin
        have h2 : (improve d false path size).2 = 0 := by rw [h]
        rw [h2] at hmin'
        omega
      · exact ⟨p, by rw [heq]⟩
    | true =>
      have hfs : ((candidates size).find?
          (fun q => decide (change d path q.1 q.2 < 0))).isSome = true :=
        List.find?_isSome.mpr ⟨q, hq, by simpa using hneg⟩
      obtain ⟨p', hp'⟩ := Option.isSome_iff_exists.mp hfs
      exact ⟨p', by
        rw [show improve d true path size = (some p', change d path p'.1 p'.2) from
          improveGo_fast_some d path (candidates size) none 0 p' hp']⟩

/-- Witness for C3: on the `cross` matrix from `[0,2,1,3]` the exhaustive scan
returns `(0, 2)` with delta `-2`, which is minimal over the candidate space. -/
theorem claim3_witness :
    (0, 2) ∈ candidates 4
    ∧ (-2 : Int) = change crossD [0, 2, 1, 3] 0 2
    ∧ (-2 : Int) < 0
    ∧ ∀ q ∈ candidates 4, (-2 : Int) ≤ change crossD [0, 2, 1, 3] q.1 q.2 :=
  claim3_mode_policy.2.1 crossD [0, 2, 1, 3] 4 (0, 2) (-2) (by decide)

/-- C7: `optimise()` keys the route cache by an order-independent function of
the node multiset (any two orderings of the same nodes get the same key); on a
hit it adopts the cached path and cost with the engine never invoked (any
fuel, even 0, gives the same result); on a miss it runs the engine and saves
the result into the instance state and into the cache under that key; in all
cases it returns the resulting `(path, cost)` pair. -/
theorem claim7_optimise_cache :
    (∀ p q : List Nat, p.Perm q → sortKey p = sortKey q)
    ∧ (∀ (d : Nat → Nat → Int) (fuel : Nat) (s : TSPState) (routes : Cache)
        (p : List Nat) (c : Int),
        lookupCache routes (sortKey s.heuristic_path) = some (p, c) →
        optimise d fuel s routes
          = some ({ s with heuristic_path := p, heuristic_cost := c }, routes, (p, c)))
    ∧ (∀ (d : Nat → Nat → Int) (fuel : Nat) (s : TSPState) (routes : Cache)
        (s' : TSPState) (routes' : Cache) (res : List Nat × Int),
        lookupCache routes (sortKey s.heuristic_path) = none →
        optimise d fuel s routes = some (s', routes', res) →
        res = (s'.heuristic_path, s'.heuristic_cost)
        ∧ s'.heuristic_path.Perm s.heuristic_path
        ∧ pathCost d s'.heuristic_path = some s'.heuristic_cost
        ∧ routes' = (sortKey s.heuristic_path,
            (s'.heuristic_path, s'.heuristic_cost)) :: routes
        ∧ lookupCache routes' (sortKey s.heuristic_path)
            = some (s'.heuristic_path, s'.heuristic_cost)) := by
  refine ⟨sortKey_eq_of_perm, ?_, ?_⟩
  · intro d fuel s routes p c hl
    simp only [optimise, hl]
  · intro d fuel s routes s' routes' res hl hopt
    simp only [optimise, hl] at hopt
    rcases htr : twoOptRun d fuel s routes with _ | ⟨s1, r1⟩
    · rw [htr] at hopt
      exact absurd hopt (by simp)
    · rw [htr, Option.map_some'] at hopt
      have he : ((s1, r1, (s1.heuristic_path, s1.heuristic_cost)) :
          TSPState × Cache × (List Nat × Int)) = (s', routes', res) :=
        Option.some_inj.mp hopt
      have h1 : s1 = s' := congrArg Prod.fst he
      have h23 : ((r1, (s1.heuristic_path, s1.heuristic_cost)) :
          Cache × (List Nat × Int)) = (routes', res) := congrArg Prod.snd he
      have h2 : r1 = routes' := congrArg Prod.fst h23
      have h3 : (s1.heuristic_path, s1.heuristic_cost) = res := congrArg Prod.snd h23
      obtain ⟨best, cc, hbe, hpc, hs, hr⟩ := twoOptRun_some d fuel s routes s1 r1 htr
      have hperm : best.Perm s.heuristic_path :=
        optimiseLoop_perm d s.fast _ fuel _ best hbe
      have hkey : sortKey s.heuristic_path = sortKey best :=
        sortKey_eq_of_perm _ _ hperm.symm
      have hpath : s'.heuristic_path = best := by
        rw [← h1, hs]
      have hcost : s'.heuristic_cost = cc := by
        rw [← h1, hs]
      have hres : res = (s'.heuristic_path, s'.heuristic_cost) := by
        rw [← h1]
        exact h3.symm
      have hroutes : routes' = (sortKey s.heuristic_path,
          (s'.heuristic_path, s'.heuristic_cost)) :: routes := by
        rw [← h2, hr, hkey, hpath, hcost]
      refine ⟨hres, ?_, ?_, hroutes, ?_⟩
      · rw [hpath]
        exact hperm
      · rw [hpath, hcost]
        exact hpc
      · rw [hroutes]
        exact lookupCache_cons_self _ _ _

/-- Witness for C7: a cache hit with fuel 0 (so the engine cannot have run)
adopts the cached tour `[0,1,2,3]` with cost 8 for the differently ordered
heuristic tour `[0,2,1,3]` of the same node set. -/
theorem claim7_witness :
    optimise crossD 0
        (TSPState.mk [0, 1, 2, 3] false [0, 1, 2, 3] 8 [0, 2, 1, 3] 10)
        [([0, 1, 2, 3], ([0, 1, 2, 3], 8))]
      = some (TSPState.mk [0, 1, 2, 3] false [0, 1, 2, 3] 8 [0, 1, 2, 3] 8,
          [([0, 1, 2, 3], ([0, 1, 2, 3], 8))], ([0, 1, 2, 3], 8)) :=
  claim7_optimise_cache.2.1 crossD 0
    (TSPState.mk [0, 1, 2, 3] false [0, 1, 2, 3] 8 [0, 2, 1, 3] 10)
    [([0, 1, 2, 3], ([0, 1, 2, 3], 8))] [0, 1, 2, 3] 8 (by decide)

/-- C8: `update(nodeSubset)` sets `heuristic_path` to the subsequence of the
original `initial_path` restricted to nodes of the subset (relative order
preserved: it is a sublist whose members are exactly the initial-path nodes in
the subset), sets `heuristic_cost` to its `pathCost`, and touches no other
field; on `initial_path = [0..12]`, `update([2..12])` yields `[2..12]`. -/
theorem claim8_update_projects :
    (∀ (d : Nat → Nat → Int) (s : TSPState) (sol : List Nat) (s' : TSPState),
      update d s sol = .ok s' →
      s'.heuristic_path = s.initial_path.filter (fun i => i ∈ sol)
      ∧ s'.heuristic_path.Sublist s.initial_path
      ∧ (∀ x, x ∈ s'.heuristic_path ↔ x ∈ s.initial_path ∧ x ∈ sol)
      ∧ pathCost d s'.heuristic_path = some s'.heuristic_cost
      ∧ s'.initial_path = s.initial_path ∧ s'.nodes = s.nodes ∧ s'.fast = s.fast
      ∧ s'.initial_cost = s.initial_cost)
    ∧ update (fun _ _ => (0 : Int))
        (TSPState.mk [0, 1, 2, 3, 4, 5, 6, 7, 8, 9, 10, 11, 12] false
          [0, 1, 2, 3, 4, 5, 6, 7, 8, 9, 10, 11, 12] 0
          [0, 1, 2, 3, 4, 5, 6, 7, 8, 9, 10, 11, 12] 0)
        [2, 3, 4, 5, 6, 7, 8, 9, 10, 11, 12]
      = .ok (TSPState.mk [0, 1, 2, 3, 4, 5, 6, 7, 8, 9, 10, 11, 12] false
          [0, 1, 2, 3, 4, 5, 6, 7, 8, 9, 10, 11, 12] 0
          [2, 3, 4, 5, 6, 7, 8, 9, 10, 11, 12] 0) := by
  constructor
  · intro d s sol s' h
    simp only [update] at h
    rcases hpc : pathCost d (s.initial_path.filter fun i => i ∈ sol) with _ | c
    · rw [hpc] at h
      cases h
    · rw [hpc] at h
      have he : ({ s with
          heuristic_path := s.initial_path.filter (fun i => i ∈ sol),
          heuristic_cost := c } : TSPState) = s' := Except.ok.inj h
      rw [← he]
      refine ⟨rfl, List.filter_sublist _, ?_, hpc, rfl, rfl, rfl, rfl⟩
      intro x
      rw [List.mem_filter]
      simp
  · rfl

/-- Witness for C8 at the 13-node initial path of the notebook test. -/
theorem claim8_witness :
    (TSPState.mk [0, 1, 2, 3, 4, 5, 6, 7, 8, 9, 10, 11, 12] false
        [0, 1, 2, 3, 4, 5, 6, 7, 8, 9, 10, 11, 12] 0
        [2, 3, 4, 5, 6, 7, 8, 9, 10, 11, 12] 0).heuristic_path
      = ([0, 1, 2, 3, 4, 5, 6, 7, 8, 9, 10, 11, 12] : List Nat).filter
          (fun i => i ∈ ([2, 3, 4, 5, 6, 7, 8, 9, 10, 11, 12] : List Nat)) :=
  (claim8_update_projects.1 (fun _ _ => (0 : Int))
    (TSPState.mk [0, 1, 2, 3, 4, 5, 6, 7, 8, 9, 10, 11, 12] false
      [0, 1, 2, 3, 4, 5, 6, 7, 8, 9, 10, 11, 12] 0
      [0, 1, 2, 3, 4, 5, 6, 7, 8, 9, 10, 11, 12] 0)
    [2, 3, 4, 5, 6, 7, 8, 9, 10, 11, 12]
    (TSPState.mk [0, 1, 2, 3, 4, 5, 6, 7, 8, 9, 10, 11, 12] false
      [0, 1, 2, 3, 4, 5, 6, 7, 8, 9, 10, 11, 12] 0
      [2, 3, 4, 5, 6, 7, 8, 9, 10, 11, 12] 0)
    (by rfl)).1

/-- C9 as stated is false: `pathCost` of an empty tour does fail explicitly
(`none`, the `IndexError` on `path[-1]`), but `update` assigns
`heuristic_path` *before* computing `pathCost`, so a failing `update` leaves
the instance partially mutated.  Concretely, updating the instance with
initial path `[0,1]` to the empty subset fails with `heuristic_path` already
changed from `[0,1]` to `[]`. -/
theorem claim9_counterexample :
    update crossD (TSPState.mk [0, 1] false [0, 1] 4 [0, 1] 4) []
      = Except.error (TSPState.mk [0, 1] false [0, 1] 4 [] 4)
    ∧ ([] : List Nat) ≠ [0, 1] :=
  ⟨rfl, by decide⟩

/-- C9 amended: `pathCost` of a zero-length tour fails explicitly rather than
returning 0, and a failing `update` surfaces the failure to the caller with
`heuristic_cost` unchanged — but `heuristic_path` has already been set to the
(empty) projected subsequence, so the instance is partially mutated. -/
theorem claim9_amended :
    (∀ d : Nat → Nat → Int, pathCost d [] = none)
    ∧ (∀ (d : Nat → Nat → Int) (s : TSPState) (sol : List Nat) (e : TSPState),
        update d s sol = .error e →
        pathCost d (s.initial_path.filter (fun i => i ∈ sol)) = none
        ∧ e.heuristic_path = s.initial_path.filter (fun i => i ∈ sol)
        ∧ e.heuristic_cost = s.heuristic_cost
        ∧ e.initial_path = s.initial_path ∧ e.nodes = s.nodes ∧ e.fast = s.fast
        ∧ e.initial_cost = s.initial_cost) := by
  constructor
  · intro d
    rfl
  · intro d s sol e h
    simp only [update] at h
    rcases hpc : pathCost d (s.initial_path.filter fun i => i ∈ sol) with _ | c
    · rw [hpc] at h
      have he : ({ s with heuristic_path := s.initial_path.filter (fun i => i ∈ sol) } :
          TSPState) = e := Except.error.inj h
      rw [← he]
      exact ⟨rfl, rfl, rfl, rfl, rfl, rfl, rfl⟩
    · rw [hpc] at h
      cases h

/-- Witness for the amended C9 at the concrete failing input. -/
theorem claim9_witness :
    pathCost crossD (([0, 1] : List Nat).filter (fun i => i ∈ ([] : List Nat))) = none
    ∧ (TSPState.mk [0, 1] false [0, 1] 4 [] 4).heuristic_path
        = ([0, 1] : List Nat).filter (fun i => i ∈ ([] : List Nat))
    ∧ (TSPState.mk [0, 1] false [0, 1] 4 [] 4).heuristic_cost
        = (TSPState.mk [0, 1] false [0, 1] 4 [0, 1] 4).heuristic_cost
    ∧ (TSPState.mk [0, 1] false [0, 1] 4 [] 4).initial_path
        = (TSPState.mk [0, 1] false [0, 1] 4 [0, 1] 4).initial_path
    ∧ (TSPState.mk [0, 1] false [0, 1] 4 [] 4).nodes
        = (TSPState.mk [0, 1] false [0, 1] 4 [0, 1] 4).nodes
    ∧ (TSPState.mk [0, 1] false [0, 1] 4 [] 4).fast
        = (TSPState.mk [0, 1] false [0, 1] 4 [0, 1] 4).fast
    ∧ (TSPState.mk [0, 1] false [0, 1] 4 [] 4).initial_cost
        = (TSPState.mk [0, 1] false [0, 1] 4 [0, 1] 4).initial_cost :=
  claim9_amended.2 crossD (TSPState.mk [0, 1] false [0, 1] 4 [0, 1] 4) []
    (TSPState.mk [0, 1] false [0, 1] 4 [] 4) (by rfl)

/-- C10: for valid indices `i ≤ j`, `swap` returns a permutation of its input
(same elements, same multiplicities, same length), and consequently the tour
saved by a terminating run of `TwoOpt._optimise` is a rearrangement of the
starting heuristic path: no node is added, dropped or duplicated. -/
theorem claim10_engine_permutes :
    (∀ (t : List Nat) (i j : Nat), i ≤ j → (swap t i j).Perm t)
    ∧ (∀ (d : Nat → Nat → Int) (fuel : Nat) (s : TSPState) (routes : Cache)
        (s' : TSPState) (routes' : Cache),
        twoOptRun d fuel s routes = some (s', routes') →
        s'.heuristic_path.Perm s.heuristic_path) := by
  constructor
  · exact fun t i j hij => swap_perm t i j hij
  · intro d fuel s routes s' routes' h
    obtain ⟨best, c, hbe, hpc, hs, hr⟩ := twoOptRun_some d fuel s routes s' routes' h
    rw [hs]
    exact optimiseLoop_perm d s.fast _ fuel s.heuristic_path best hbe

/-- Witness for C10: the run of `_optimise` on `[0,2,1,3]` over the `cross`
matrix saves `[0,1,2,3]`, a permutation of the start tour. -/
theorem claim10_witness :
    (swap [0, 2, 1, 3] 1 2).Perm [0, 2, 1, 3]
    ∧ (TSPState.mk [0, 1, 2, 3] false [0, 1, 2, 3] 8 [0, 1, 2, 3] 8).heuristic_path.Perm
        (TSPState.mk [0, 1, 2, 3] false [0, 1, 2, 3] 8 [0, 2, 1, 3] 10).heuristic_path :=
  ⟨claim10_engine_permutes.1 [0, 2, 1, 3] 1 2 (by decide),
   claim10_engine_permutes.2 crossD 5
     (TSPState.mk [0, 1, 2, 3] false [0, 1, 2, 3] 8 [0, 2, 1, 3] 10) []
     (TSPState.mk [0, 1, 2, 3] false [0, 1, 2, 3] 8 [0, 1, 2, 3] 8)
     [([0, 1, 2, 3], ([0, 1, 2, 3], 8))] (by decide)⟩

end TwoOptModel
